import Mathlib

/-!
Verification of the `pepc` SSH process-execution layer
(`pepclibs/helperlibs/SSHProcessManager.py`).

This file shallowly embeds the interactive-shell marker protocol
(`SSHProcess._watch_for_marker`, `SSHProcess._wait_intsh`), the dispatch logic
of `SSHProcessManager._run_async` / `run_async` / `run`, and the
`SSHProcessManager.__new__` factory, and proves or refutes the frozen claims
about them.

Strings are modelled as `List Char`.  Python's `str.rsplit`, `str.startswith`,
`str.rstrip` and the compiled marker regular expression are translated into
executable Lean functions below; each definition names the source construct it
embeds.
-/

namespace Pepc

/-- Python `data.rsplit("\n", 1)`: split `data` at its *last* newline.
Returns `some (before, after)` with `data = before ++ '\n' :: after` and no
newline in `after`; returns `none` when `data` has no newline. -/
def splitLastNL : List Char → Option (List Char × List Char)
  | [] => none
  | c :: rest =>
    match splitLastNL rest with
    | some (b, a) => some (c :: b, a)
    | none => if c = '\n' then some ([], rest) else none

/-- The text after the last newline of a string (the whole string if it has no
newline).  This is the "pending fragment" of the stream prefix. -/
def afterLastNL (s : List Char) : List Char :=
  match splitLastNL s with
  | some (_, a) => a
  | none => s

/-- `self._ll.startswith(self._marker) or self._marker.startswith(self._ll)`
(SSHProcessManager.py line 173). -/
def markerRel (m ll : List Char) : Bool :=
  m.isPrefixOf ll || ll.isPrefixOf m

/-- The completion trailer line printed by the interactive shell for a command:
`"<marker>, <digits> ---"` (built by `_run_in_intsh`, line 479, from the
marker picked by `_reinit_marker`). -/
def trailer (m ds : List Char) : List Char :=
  m ++ [',', ' '] ++ ds ++ [' ', '-', '-', '-']

/-- `re.match(self._marker_regex, self._ll)` where
`self._marker_regex = re.compile(f"^<marker>, \\d+ ---$")` (line 376).
The marker has the shape `--- <64 hex digits>` and so contains no regex
metacharacters; hence the compiled regex matches `ll` exactly when
`ll = marker ++ ", " ++ ds ++ " ---"` for a nonempty digit string `ds`. -/
def matchesTrailer (m ll : List Char) : Bool :=
  (m ++ [',', ' ']).isPrefixOf ll &&
    (let r := ll.drop (m.length + 2)
     decide (r.take (r.length - 4) ≠ []) &&
       (r.take (r.length - 4)).all (fun c => c.isDigit) &&
       decide (r.drop (r.length - 4) = [' ', '-', '-', '-']))

/-- Python `self._ll.rsplit(", ", 1)` (line 180): split at the *last*
occurrence of the two-character separator `", "`.  Returns
`some (a, b)` with `ll = a ++ ',' :: ' ' :: b` and no later occurrence. -/
def rsplitCS : List Char → Option (List Char × List Char)
  | [] => none
  | c :: rest =>
    match rsplitCS rest with
    | some (a, b) => some (c :: a, b)
    | none =>
      if c = ',' ∧ rest.head? = some ' ' then some ([], rest.tail) else none

/-- Python `s.rstrip(" ---")` (line 182): remove all trailing characters that
are a space or a dash. -/
def rstripDashSpace (l : List Char) : List Char :=
  (l.reverse.dropWhile (fun c => c = ' ' || c = '-')).reverse

/-- Modelled from the spec: `Trivial.is_int` (module `Trivial` is not under
`src/`).  Per the spec the trailer tail must "parse as the integer"; an
optionally signed nonempty digit string is accepted. -/
def isIntStr (l : List Char) : Bool :=
  match l with
  | [] => false
  | c :: rest =>
    if c = '-' ∨ c = '+' then decide (rest ≠ []) && rest.all (fun c => c.isDigit)
    else (c :: rest).all (fun c => c.isDigit)

/-- Numeric value of a digit string (Python `int(...)` on the digits parsed
from the trailer). -/
def digitsToNat (l : List Char) : Nat :=
  l.foldl (fun acc c => acc * 10 + (c.toNat - ('0').toNat)) 0

/-- Python `int(s)` for the optionally signed strings accepted by
`isIntStr`. -/
def strToInt (l : List Char) : Int :=
  if l.head? = some '-' then -(digitsToNat l.tail : Int)
  else if l.head? = some '+' then (digitsToNat l.tail : Int)
  else (digitsToNat l : Int)

/-- The per-stream pending-fragment state of an `SSHProcess` running in the
interactive shell: `self._ll` (the last observed unfinished line) and
`self._check_ll` (whether `_ll` is still a marker candidate). -/
structure WState where
  ll : List Char
  check : Bool
  deriving DecidableEq, Repr

/-- The state set by `SSHProcess._reinit` (lines 386-387): `self._ll = ""`,
`self._check_ll = True`. -/
def reinitWState : WState := ⟨[], true⟩

/-- Failures `_watch_for_marker` can raise: the `assert len(split) == 2`
(line 181) and the `Error` for a non-integer exit code (lines 183-186). -/
inductive WErr where
  | assertFail
  | badExitCode
  | streamClosed
  deriving DecidableEq, Repr

/-- Lines 148-169 of `_watch_for_marker`: split `data` on its last newline and
update the pending fragment.  Returns the data to capture from this block and
the updated `(self._ll, self._check_ll)` pair. -/
def watchSplit (st : WState) (data : List Char) : List Char × WState :=
  match splitLastNL data with
  | some (before, after) => (st.ll ++ before ++ ['\n'], ⟨after, true⟩)
  | none =>
    let c0 := if st.ll = [] then true else st.check
    if c0 then ([], ⟨st.ll ++ data, true⟩)
    else (st.ll ++ data, ⟨[], false⟩)

/-- Lines 171-173 of `_watch_for_marker`: re-evaluate the marker-candidate
flag of the pending fragment produced by `watchSplit`. -/
def watchPend (m : List Char) (st : WState) (data : List Char) : WState :=
  let s1 := (watchSplit st data).2
  if s1.check then ⟨s1.ll, markerRel m s1.ll⟩ else s1

/-- Lines 180-190 of `_watch_for_marker`: extract the exit code from a pending
fragment that fully matched the marker regex — `rsplit(", ", 1)` (the `assert`
models the Python `assert len(split) == 2`), `rstrip(" ---")`, the
`Trivial.is_int` check, and `int(...)`. -/
def extractExit (ll : List Char) : Except WErr Int :=
  match rsplitCS ll with
  | none => .error .assertFail
  | some (_, tail) =>
    let ec := rstripDashSpace tail
    if isIntStr ec then .ok (strToInt ec) else .error .badExitCode

/-- `SSHProcess._watch_for_marker(data)` (lines 123-195), for marker `m`.
Returns the captured data `cdata`, the exit code (when the marker matched) and
the updated `(self._ll, self._check_ll)` state. -/
def watch (m : List Char) (st : WState) (data : List Char) :
    Except WErr (List Char × Option Int × WState) :=
  let cdata := (watchSplit st data).1
  let st2 := watchPend m st data
  -- line 177: full trailer match check
  if st2.check && matchesTrailer m st2.ll then
    match extractExit st2.ll with
    | .error e => .error e
    | .ok v => .ok (cdata, some v, ⟨[], false⟩)
  else
    .ok (cdata, none, st2)

/-- The stdout side of the `_wait_intsh` drain loop (lines 221-229) applied to
a sequence of stdout chunks: every chunk is passed through `_watch_for_marker`,
the captured pieces are concatenated, and — exactly as the assignment
`data, self.exitcode = self._watch_for_marker(data)` does — the running exit
code `ex` is *overwritten* by each call's result. -/
def runChunksAux (m : List Char) (st : WState) (ex : Option Int) :
    List (List Char) → Except WErr (List Char × Option Int × WState)
  | [] => .ok ([], ex, st)
  | d :: rest =>
    match watch m st d with
    | .error e => .error e
    | .ok (c, e, st') =>
      match runChunksAux m st' e rest with
      | .error e2 => .error e2
      | .ok (cs, ex', st'') => .ok (c ++ cs, ex', st'')

/-- `runChunksAux` from the freshly re-initialized state (`_reinit`,
lines 386-387) with no exit code yet. -/
def runChunks (m : List Char) (chunks : List (List Char)) :
    Except WErr (List Char × Option Int × WState) :=
  runChunksAux m reinitWState none chunks

/-- Modelled from the spec: `SSHProcess._read_pid` consumes exactly the first
captured stdout line (the process-id line) via `wait(lines=(1, 0))`; the
`ProcessBase` wait/`_get_lines_to_return` machinery it uses is not under
`src/`.  Removing the process-id line from the captured stream is dropping
everything up to and including the first newline. -/
def dropFirstLine : List Char → List Char
  | [] => []
  | c :: r => if c = '\n' then r else dropFirstLine r

/-- `containsSeg s p = true` iff `p` occurs as a contiguous segment of `s`.
Used to state that the marker does not occur inside ordinary command
output (the spec's marker-uniqueness invariant). -/
def containsSeg : List Char → List Char → Bool
  | [], p => p.isEmpty
  | c :: t, p => p.isPrefixOf (c :: t) || containsSeg t p

/-- One `(streamid, data)` queue item produced by the stream fetchers and
consumed by `_wait_intsh` (`_get_next_queue_item` returns `(-1, None)` on
timeout, `(streamid, None)` on stream closure). -/
inductive QItem where
  | timedOut
  | closed (streamid : Nat)
  | chunk (streamid : Nat) (data : List Char)
  deriving DecidableEq, Repr

/-- The mutable state of an interactive-shell `SSHProcess` during
`_wait_intsh`: `self.exitcode`, the `(self._ll, self._check_ll)` pair, and the
accumulated captured output of each stream (`self._output`, modelled from the
spec as the list of captured pieces since `ProcessBase._handle_queue_item` is
not under `src/`). -/
structure IntshState where
  exitcode : Option Int
  ws : WState
  out0 : List (List Char)
  out1 : List (List Char)
  deriving DecidableEq, Repr

/-- `_have_enough_lines(output, lines)` (lines 62-68): `True` when some stream
has a nonzero line quota that its captured output has reached. -/
def haveEnoughLines (st : IntshState) (lines : Option Nat × Option Nat) : Bool :=
  (match lines.1 with
   | none => false
   | some k => decide (k ≠ 0) && decide (st.out0.length ≥ k)) ||
  (match lines.2 with
   | none => false
   | some k => decide (k ≠ 0) && decide (st.out1.length ≥ k))

/-- The body of one `_wait_intsh` loop iteration (lines 215-229) applied to the
queue item it fetched. -/
def waitIntshStep (m : List Char) (st : IntshState) (item : QItem) :
    Except WErr IntshState :=
  match item with
  | .timedOut => .ok st
  | .closed _ => .error .streamClosed
  | .chunk 0 d =>
    match watch m st.ws d with
    | .error e => .error e
    | .ok (c, e, ws') => .ok { st with exitcode := e, ws := ws', out0 := st.out0 ++ [c] }
  | .chunk _ d => .ok { st with out1 := st.out1 ++ [d] }

/-- The `_wait_intsh` drain loop (lines 210-236) over the pending queue items:
stop when `_have_enough_lines` holds, or when the exit code is set and the
queue is empty; otherwise fetch the next item and run the loop body.
(The wall-clock timeout breaks only truncate the list of items drained, so
they are represented by the choice of the queue list.) -/
def waitIntshLoop (m : List Char) (lines : Option Nat × Option Nat) :
    IntshState → List QItem → Except WErr IntshState
  | st, [] => .ok st
  | st, item :: rest =>
    if haveEnoughLines st lines then .ok st
    else
      match waitIntshStep m st item with
      | .error e => .error e
      | .ok st' => waitIntshLoop m lines st' rest

/-- After the drain loop, `_wait_intsh` marks the interactive shell vacant
(lines 240-248): when the process is done it tries to take the lock; on
failure it only logs a warning; either way the computed result is returned.
The returned pair is `(result, new busy flag)`. -/
def waitIntshFinish (done acquired busy : Bool) (result : α) : α × Bool :=
  if done then (if acquired then (result, false) else (result, busy))
  else (result, busy)

/-- The result of a finished `run()` call: captured output plus
`exitcode` (`ProcResult` of `_ProcessManagerBase`). -/
structure ProcResult where
  stdout : List (List Char)
  stderr : List (List Char)
  exitcode : Option Int
  deriving DecidableEq, Repr

/-- Errors surfaced by the `run` path. -/
inductive RunErr where
  | errorTimeOut
  | genericError
  deriving DecidableEq, Repr

/-- The tail of `SSHProcessManager.run` (lines 620-632): once `proc.wait`
produced `result`, raise `ErrorTimeOut` when `result.exitcode is None` and
return `result` unchanged otherwise. -/
def runFinish (result : ProcResult) : Except RunErr ProcResult :=
  match result.exitcode with
  | none => .error .errorTimeOut
  | some _ => .ok result

/-- Which execution path a `_run_async` call took. -/
inductive Disp where
  | raised            -- the `Error` raised at line 507
  | newSession        -- line 510: plain dedicated-session path
  | newSessionFallback -- line 527: dedicated session because the shell is busy
  | intshProc         -- line 530: the interactive-shell fast path
  | newSessionRetry   -- line 550: dedicated session after a transport error
  deriving DecidableEq, Repr

/-- The environment a `_run_async` call runs in: whether the two
`_acquire_intsh_lock` calls succeed within their 5-second bound, the busy
flag, whether `_run_in_intsh` raises a transport error, and the cached
interactive-shell session (as an opaque id). -/
structure AsyncEnv where
  lockDispatch : Bool
  busy : Bool
  intshOk : Bool
  lockRecover : Bool
  intsh : Option Nat
  deriving DecidableEq, Repr

/-- Outcome of `_run_async`: the dispatch taken, the busy flag and cached
session afterwards. -/
structure AsyncOut where
  disp : Disp
  busy : Bool
  intsh : Option Nat
  deriving DecidableEq, Repr

/-- `SSHProcessManager._run_async(command, cwd, shell, intsh)`
(lines 503-550). -/
def runAsyncModel (shell intsh : Bool) (env : AsyncEnv) : AsyncOut :=
  -- line 506-507
  if !shell && intsh then ⟨.raised, env.busy, env.intsh⟩
  -- line 509-510
  else if !shell || !intsh then ⟨.newSession, env.busy, env.intsh⟩
  else
    -- lines 512-522: single-flight guard
    let proceed := env.lockDispatch && !env.busy
    let busy1 := if proceed then true else env.busy
    if !proceed then ⟨.newSessionFallback, busy1, env.intsh⟩
    -- lines 529-530
    else if env.intshOk then ⟨.intshProc, busy1, env.intsh⟩
    -- lines 531-550: transport error, teardown and retry in a new session
    else if env.lockRecover then ⟨.newSessionRetry, false, none⟩
    else ⟨.newSessionRetry, busy1, env.intsh⟩

/-- Errors raised by the public entry points before dispatch. -/
inductive EntryErr where
  | unsupportedArg
  | cwdNeedsShell
  deriving DecidableEq, Repr

/-- `SSHProcessManager.run_async` (lines 552-584): reject unsupported stream
arguments, reject `cwd` without a shell (lines 575-577), then call
`_run_async`. -/
def runAsyncEntry (cwd : Option (List Char)) (shell intsh : Bool)
    (stdin stdout stderr : Option Unit) (env : AsyncEnv) :
    Except EntryErr AsyncOut :=
  if stdin ≠ none ∨ stdout ≠ none ∨ stderr ≠ none then .error .unsupportedArg
  else
    match cwd with
    | some _ =>
      if shell then .ok (runAsyncModel shell intsh env) else .error .cwdNeedsShell
    | none => .ok (runAsyncModel shell intsh env)

/-- The dispatch part of `SSHProcessManager.run` (lines 610-614): default
`intsh` to `shell` and call `_run_async` directly — without any `cwd`
check. -/
def runEntryDispatch (cwd : Option (List Char)) (shell : Bool)
    (intshArg : Option Bool) (env : AsyncEnv) : Except EntryErr AsyncOut :=
  let intsh := intshArg.getD shell
  .ok (runAsyncModel shell intsh env)

/-- `SSHProcessManager._format_cmd_for_pid(cmd, cwd)` (lines 424-437). -/
def formatCmdForPid (cmd : List Char) (cwd : Option (List Char)) : List Char :=
  let pidPart := "printf \"%s\\n\" \"$$\";".toList
  let cwdPart := match cwd with
    | some c => " cd \"".toList ++ c ++ "\" &&".toList
    | none => []
  pidPart ++ cwdPart ++ " exec ".toList ++ cmd

/-- The command text actually executed by `_run_in_new_session`
(lines 439-444): with a shell the command is wrapped by
`_format_cmd_for_pid` (which applies `cwd`); without a shell it is passed
through unchanged and `cwd` is never used. -/
def newSessionCmd (cmd : List Char) (cwd : Option (List Char)) (shell : Bool) :
    List Char :=
  if shell then formatCmdForPid cmd cwd else cmd

/-- What kind of object `SSHProcessManager(...)` construction produces. -/
inductive PMInstance where
  | localPM
  | sshPM (hostname : List Char)
  deriving DecidableEq, Repr

/-- `SSHProcessManager.__new__(cls, *_, **kwargs)` (lines 981-991): positional
arguments are ignored entirely; a `LocalProcessManager` is returned unless the
keyword argument `hostname` is present and not `None`.  `kwHostname` is
`none` when the keyword is absent and `some h` when it is passed with value
`h : Option (List Char)`. -/
def sshProcessManagerNew (positional : List (List Char))
    (kwHostname : Option (Option (List Char))) : PMInstance :=
  match kwHostname with
  | some (some h) => .sshPM h
  | _ => .localPM

/-! ### Properties of the newline splitter -/

theorem splitLastNL_eq_none_iff {d : List Char} :
    splitLastNL d = none ↔ '\n' ∉ d := by
  induction d with
  | nil => simp [splitLastNL]
  | cons c rest ih =>
    simp only [splitLastNL]
    cases h : splitLastNL rest with
    | some p =>
      have hmem : '\n' ∈ rest := by
        by_contra hn
        rw [ih.mpr hn] at h
        exact Option.noConfusion h
      simp [List.mem_cons, hmem]
    | none =>
      have hnr : '\n' ∉ rest := ih.mp h
      by_cases hc : c = '\n'
      · simp [hc]
      · simp only [if_neg hc, List.mem_cons, true_iff]
        rintro (h1 | h2)
        · exact hc h1.symm
        · exact hnr h2

/-- A decomposition at a newline with no newline after it is unique. -/
theorem lastNL_decomp_unique :
    ∀ {b a b' a' : List Char}, b ++ '\n' :: a = b' ++ '\n' :: a' →
      '\n' ∉ a → '\n' ∉ a' → b = b' ∧ a = a' := by
  intro b
  induction b with
  | nil =>
    intro a b' a' h ha ha'
    cases b' with
    | nil =>
      simp only [List.nil_append, List.cons.injEq] at h
      exact ⟨rfl, h.2⟩
    | cons y ys =>
      exfalso
      simp only [List.nil_append, List.cons_append, List.cons.injEq] at h
      exact ha (h.2 ▸ (by simp : '\n' ∈ ys ++ '\n' :: a'))
  | cons x xs ih =>
    intro a b' a' h ha ha'
    cases b' with
    | nil =>
      exfalso
      simp only [List.cons_append, List.nil_append, List.cons.injEq] at h
      exact ha' (h.2.symm ▸ (by simp : '\n' ∈ xs ++ '\n' :: a))
    | cons y ys =>
      simp only [List.cons_append, List.cons.injEq] at h
      obtain ⟨hxy, hrest⟩ := h
      obtain ⟨h1, h2⟩ := ih hrest ha ha'
      exact ⟨by rw [hxy, h1], h2⟩

theorem splitLastNL_eq_some {d b a : List Char} :
    splitLastNL d = some (b, a) ↔ d = b ++ '\n' :: a ∧ '\n' ∉ a := by
  induction d generalizing b a with
  | nil =>
    simp only [splitLastNL]
    constructor
    · intro h; exact absurd h (by simp)
    · rintro ⟨h, -⟩
      exact absurd h.symm (List.append_ne_nil_of_right_ne_nil b (by simp))
  | cons c rest ih =>
    simp only [splitLastNL]
    cases h : splitLastNL rest with
    | some p =>
      obtain ⟨b', a'⟩ := p
      obtain ⟨hrest, hna'⟩ := ih.mp h
      subst hrest
      simp only [Option.some.injEq, Prod.mk.injEq]
      constructor
      · rintro ⟨h1, h2⟩
        subst h1; subst h2
        exact ⟨by simp, hna'⟩
      · rintro ⟨hd, hna⟩
        cases b with
        | nil =>
          exfalso
          simp only [List.nil_append, List.cons.injEq] at hd
          exact hna (hd.2 ▸ (by simp : '\n' ∈ b' ++ '\n' :: a'))
        | cons x xs =>
          simp only [List.cons_append, List.cons.injEq] at hd
          obtain ⟨hcx, hrest2⟩ := hd
          obtain ⟨h1, h2⟩ := lastNL_decomp_unique hrest2 hna' hna
          exact ⟨by rw [hcx, h1], h2⟩
    | none =>
      have hnr : '\n' ∉ rest := splitLastNL_eq_none_iff.mp h
      by_cases hc : c = '\n'
      · subst hc
        rw [if_pos rfl]
        simp only [Option.some.injEq, Prod.mk.injEq]
        constructor
        · rintro ⟨h1, h2⟩
          subst h1; subst h2
          exact ⟨rfl, hnr⟩
        · rintro ⟨hd, hna⟩
          cases b with
          | nil =>
            simp only [List.nil_append, List.cons.injEq] at hd
            exact ⟨rfl, hd.2⟩
          | cons x xs =>
            exfalso
            simp only [List.cons_append, List.cons.injEq] at hd
            exact hnr (hd.2 ▸ (by simp : '\n' ∈ xs ++ '\n' :: a))
      · simp only [if_neg hc]
        constructor
        · intro he; exact absurd he (by simp)
        · rintro ⟨hd, hna⟩
          exfalso
          cases b with
          | nil =>
            simp only [List.nil_append, List.cons.injEq] at hd
            exact hc hd.1
          | cons x xs =>
            simp only [List.cons_append, List.cons.injEq] at hd
            exact hnr (hd.2 ▸ (by simp : '\n' ∈ xs ++ '\n' :: a))


theorem splitLastNL_of_shape {b a : List Char} (hna : '\n' ∉ a) :
    splitLastNL (b ++ '\n' :: a) = some (b, a) :=
  splitLastNL_eq_some.mpr ⟨rfl, hna⟩

theorem afterLastNL_suffix (s : List Char) : afterLastNL s <:+ s := by
  unfold afterLastNL
  cases h : splitLastNL s with
  | none => exact List.suffix_refl s
  | some p =>
    obtain ⟨b, a⟩ := p
    obtain ⟨hd, -⟩ := splitLastNL_eq_some.mp h
    exact ⟨b ++ ['\n'], by simp [hd]⟩

theorem afterLastNL_no_nl (s : List Char) : '\n' ∉ afterLastNL s := by
  unfold afterLastNL
  cases h : splitLastNL s with
  | none => exact splitLastNL_eq_none_iff.mp h
  | some p =>
    obtain ⟨b, a⟩ := p
    exact (splitLastNL_eq_some.mp h).2

theorem afterLastNL_append_no_nl {P d : List Char} (hd : '\n' ∉ d) :
    afterLastNL (P ++ d) = afterLastNL P ++ d := by
  unfold afterLastNL
  cases h : splitLastNL P with
  | none =>
    have hP : '\n' ∉ P := splitLastNL_eq_none_iff.mp h
    have : splitLastNL (P ++ d) = none := by
      apply splitLastNL_eq_none_iff.mpr
      intro hmem
      rcases List.mem_append.mp hmem with h1 | h2
      · exact hP h1
      · exact hd h2
    simp [this]
  | some p =>
    obtain ⟨b, a⟩ := p
    obtain ⟨hP, hna⟩ := splitLastNL_eq_some.mp h
    have : splitLastNL (P ++ d) = some (b, a ++ d) := by
      apply splitLastNL_eq_some.mpr
      constructor
      · rw [hP]; simp
      · intro hmem
        rcases List.mem_append.mp hmem with h1 | h2
        · exact hna h1
        · exact hd h2
    simp [this]

theorem afterLastNL_append_mem_nl {P d : List Char} (hd : '\n' ∈ d) :
    afterLastNL (P ++ d) = afterLastNL d := by
  have hsome : splitLastNL d ≠ none := by
    intro h; exact (splitLastNL_eq_none_iff.mp h) hd
  cases h : splitLastNL d with
  | none => exact absurd h hsome
  | some p =>
    obtain ⟨b, a⟩ := p
    obtain ⟨hdd, hna⟩ := splitLastNL_eq_some.mp h
    have h2 : splitLastNL (P ++ d) = some (P ++ b, a) := by
      apply splitLastNL_eq_some.mpr
      exact ⟨by rw [hdd]; simp, hna⟩
    unfold afterLastNL
    simp [h, h2]

theorem afterLastNL_ends_nl {q : List Char} : afterLastNL (q ++ ['\n']) = [] := by
  unfold afterLastNL
  rw [splitLastNL_of_shape (by simp)]

/-! ### Properties of the trailer matcher and exit-code extraction -/

theorem digit_ne {c : Char} (h : c.isDigit = true) :
    c ≠ '\n' ∧ c ≠ ',' ∧ c ≠ ' ' ∧ c ≠ '-' ∧ c ≠ '+' := by
  refine ⟨?_, ?_, ?_, ?_, ?_⟩ <;> (rintro rfl; exact absurd h (by decide))

theorem trailer_shape {m ds : List Char} :
    trailer m ds = (m ++ [',', ' ']) ++ (ds ++ [' ', '-', '-', '-']) := by
  unfold trailer
  simp

theorem trailer_ne_nil {m ds : List Char} : trailer m ds ≠ [] := by
  unfold trailer
  intro h
  have := congrArg List.length h
  simp at this

theorem nl_not_mem_trailer {m ds : List Char} (hm : '\n' ∉ m)
    (hdig : ∀ c ∈ ds, c.isDigit) : '\n' ∉ trailer m ds := by
  intro h
  rw [trailer_shape] at h
  rcases List.mem_append.mp h with h1 | h2
  · rcases List.mem_append.mp h1 with h3 | h4
    · exact hm h3
    · exact absurd h4 (by decide)
  · rcases List.mem_append.mp h2 with h3 | h4
    · exact (digit_ne (hdig _ h3)).1 rfl
    · exact absurd h4 (by decide)

theorem matchesTrailer_iff {m ll : List Char} :
    matchesTrailer m ll = true ↔
      ∃ ds, ds ≠ [] ∧ (∀ c ∈ ds, c.isDigit) ∧ ll = trailer m ds := by
  constructor
  · intro h
    simp only [matchesTrailer, Bool.and_eq_true, decide_eq_true_eq,
      List.all_eq_true] at h
    obtain ⟨hpre, ⟨hne, hall⟩, hdrop⟩ := h
    have hpre' : (m ++ [',', ' ']) <+: ll := List.isPrefixOf_iff_prefix.mp hpre
    obtain ⟨rest, hrest⟩ := hpre'
    have hr : ll.drop (m.length + 2) = rest := by
      rw [← hrest]
      have hl : (m ++ [',', ' ']).length = m.length + 2 := by simp
      rw [← hl, List.drop_left]
    rw [hr] at hne hall hdrop
    have hrest2 : rest = rest.take (rest.length - 4) ++ [' ', '-', '-', '-'] := by
      conv_lhs => rw [← List.take_append_drop (rest.length - 4) rest]
      rw [hdrop]
    refine ⟨rest.take (rest.length - 4), hne, hall, ?_⟩
    rw [← hrest, trailer_shape]
    conv_lhs => rw [hrest2]
  · rintro ⟨ds, hne, hall, rfl⟩
    have hdropeq : (trailer m ds).drop (m.length + 2) = ds ++ [' ', '-', '-', '-'] := by
      rw [trailer_shape]
      have hl : (m ++ [',', ' ']).length = m.length + 2 := by simp
      rw [← hl, List.drop_left]
    have hlen : (ds ++ [' ', '-', '-', '-']).length - 4 = ds.length := by
      simp
    simp only [matchesTrailer, Bool.and_eq_true, decide_eq_true_eq, List.all_eq_true]
    refine ⟨List.isPrefixOf_iff_prefix.mpr ⟨ds ++ [' ', '-', '-', '-'], (trailer_shape).symm⟩,
      ⟨?_, ?_⟩, ?_⟩
    · rw [hdropeq, hlen, List.take_left]
      exact hne
    · rw [hdropeq, hlen, List.take_left]
      exact hall
    · rw [hdropeq, hlen, List.drop_left]

/-- Two digit strings followed by a space-headed tail decompose uniquely. -/
theorem digits_space_unique :
    ∀ {x : List Char} {y r' r : List Char}, (∀ c ∈ x, c.isDigit) →
      (∀ c ∈ y, c.isDigit) → x ++ ' ' :: r' = y ++ ' ' :: r → x = y ∧ r' = r := by
  intro x
  induction x with
  | nil =>
    intro y r' r _ hy h
    cases y with
    | nil => simpa using h
    | cons c ys =>
      exfalso
      simp only [List.nil_append, List.cons_append, List.cons.injEq] at h
      exact (digit_ne (hy c (by simp))).2.2.1 h.1.symm
  | cons c xs ih =>
    intro y r' r hx hy h
    cases y with
    | nil =>
      exfalso
      simp only [List.cons_append, List.nil_append, List.cons.injEq] at h
      exact (digit_ne (hx c (by simp))).2.2.1 h.1
    | cons c' ys =>
      simp only [List.cons_append, List.cons.injEq] at h
      obtain ⟨h1, h2⟩ := h
      obtain ⟨h3, h4⟩ := ih (fun a ha => hx a (by simp [ha]))
        (fun a ha => hy a (by simp [ha])) h2
      exact ⟨by rw [h1, h3], h4⟩

/-- A proper prefix of a trailer line never itself matches the trailer
pattern: the full match fires exactly at the end of the trailer. -/
theorem matchesTrailer_prefix_eq {m t w ds : List Char}
    (hmt : matchesTrailer m t = true)
    (hpre : t ++ w = trailer m ds) (hdig : ∀ c ∈ ds, c.isDigit) :
    t = trailer m ds ∧ w = [] := by
  obtain ⟨ds', -, hdig', rfl⟩ := matchesTrailer_iff.mp hmt
  have h1 : (m ++ [',', ' ']) ++ (ds' ++ ' ' :: (['-', '-', '-'] ++ w)) =
      (m ++ [',', ' ']) ++ (ds ++ ' ' :: ['-', '-', '-']) := by
    have hp := hpre
    rw [trailer_shape, trailer_shape] at hp
    simp only [List.append_assoc, List.cons_append, List.nil_append] at hp ⊢
    exact hp
  have h2 := List.append_cancel_left h1
  obtain ⟨hds, hw⟩ := digits_space_unique hdig' hdig h2
  have hw' : w = [] := List.eq_nil_of_length_eq_zero (by
    have hl := congrArg List.length hw
    simp only [List.length_append, List.length_cons, List.length_nil] at hl
    omega)
  subst hds
  exact ⟨rfl, hw'⟩

/-- Splitting a prefix relation over an append. -/
theorem prefix_append_cases :
    ∀ {x : List Char} {t y : List Char}, t <+: x ++ y → t <+: x ∨ x <+: t := by
  intro x
  induction x with
  | nil => intro t y _; right; exact List.nil_prefix
  | cons a x' ih =>
    intro t y h
    cases t with
    | nil => left; exact List.nil_prefix
    | cons b t' =>
      obtain ⟨w, hw⟩ := h
      simp only [List.cons_append, List.cons.injEq] at hw
      obtain ⟨hb, hw'⟩ := hw
      rcases ih ⟨w, hw'⟩ with h1 | h2
      · left
        obtain ⟨u, hu⟩ := h1
        exact ⟨u, by rw [hb]; simp [hu]⟩
      · right
        obtain ⟨u, hu⟩ := h2
        exact ⟨u, by rw [hb]; simp [hu]⟩

/-- Any prefix of the trailer line keeps the marker-candidate flag alive
(line 173): it is a prefix of the marker or an extension of it. -/
theorem markerRel_of_trailer_prefix {m t w ds : List Char}
    (h : t ++ w = trailer m ds) : markerRel m t = true := by
  have hpre : t <+: m ++ ([',', ' '] ++ ds ++ [' ', '-', '-', '-']) := by
    refine ⟨w, ?_⟩
    rw [h]
    unfold trailer
    simp
  unfold markerRel
  rcases prefix_append_cases hpre with h1 | h2
  · exact Bool.or_eq_true_iff.mpr (Or.inr (List.isPrefixOf_iff_prefix.mpr h1))
  · exact Bool.or_eq_true_iff.mpr (Or.inl (List.isPrefixOf_iff_prefix.mpr h2))

theorem rsplitCS_eq_none {z : List Char} (h : ',' ∉ z) : rsplitCS z = none := by
  induction z with
  | nil => rfl
  | cons c rest ih =>
    have hr : rsplitCS rest = none := ih (fun hm => h (by simp [hm]))
    simp only [rsplitCS, hr]
    have hcond : ¬(c = ',' ∧ rest.head? = some ' ') := by
      rintro ⟨rfl, -⟩
      exact h (by simp)
    simp [hcond]

theorem rsplitCS_append {x y a b : List Char} (h : rsplitCS y = some (a, b)) :
    rsplitCS (x ++ y) = some (x ++ a, b) := by
  induction x with
  | nil => simpa using h
  | cons c x' ih =>
    rw [List.cons_append]
    simp only [rsplitCS, List.append_eq, ih]
    simp

theorem rsplitCS_sep {z : List Char} (h : ',' ∉ z) :
    rsplitCS (',' :: ' ' :: z) = some ([], z) := by
  have h1 : rsplitCS z = none := rsplitCS_eq_none h
  have h2 : ¬((' ' : Char) = ',' ∧ z.head? = some ' ') := by
    rintro ⟨h', -⟩
    exact absurd h' (by decide)
  simp [rsplitCS, h1, h2]

theorem rsplitCS_trailer {m ds : List Char} (hdig : ∀ c ∈ ds, c.isDigit) :
    rsplitCS (trailer m ds) = some (m, ds ++ [' ', '-', '-', '-']) := by
  have hnc : ',' ∉ ds ++ [' ', '-', '-', '-'] := by
    intro hm
    rcases List.mem_append.mp hm with h1 | h2
    · exact (digit_ne (hdig _ h1)).2.1 rfl
    · simp at h2
  have hsep := rsplitCS_sep hnc
  have h2 := rsplitCS_append (x := m) hsep
  rw [trailer_shape]
  have hcons : (m ++ [',', ' ']) ++ (ds ++ [' ', '-', '-', '-']) =
      m ++ (',' :: ' ' :: (ds ++ [' ', '-', '-', '-']))  := by simp
  rw [hcons]
  simpa using h2

theorem rstrip_trailer_tail {ds : List Char} (hne : ds ≠ [])
    (hdig : ∀ c ∈ ds, c.isDigit) :
    rstripDashSpace (ds ++ [' ', '-', '-', '-']) = ds := by
  unfold rstripDashSpace
  rw [List.reverse_append]
  have hrev : ds.reverse ≠ [] := fun h => hne (List.reverse_eq_nil_iff.mp h)
  obtain ⟨c, t, hct⟩ := List.exists_cons_of_ne_nil hrev
  have hcd : c.isDigit := hdig c (List.mem_reverse.mp (hct ▸ (by simp : c ∈ c :: t)))
  have hcp : (c = ' ' || c = '-') = false := by
    have hd := digit_ne hcd
    simp [hd.2.2.1, hd.2.2.2.1]
  have hdw : ([' ', '-', '-', '-'].reverse ++ ds.reverse).dropWhile
      (fun c => c = ' ' || c = '-') = ds.reverse := by
    rw [hct]
    simp only [List.reverse_cons, List.reverse_nil, List.nil_append,
      List.cons_append, List.dropWhile]
    norm_num [hcp]
  rw [hdw, List.reverse_reverse]

theorem isIntStr_digits {ds : List Char} (hne : ds ≠ [])
    (hdig : ∀ c ∈ ds, c.isDigit) : isIntStr ds = true := by
  obtain ⟨c, t, rfl⟩ := List.exists_cons_of_ne_nil hne
  have hd := hdig c (by simp)
  have h1 : ¬(c = '-' ∨ c = '+') := by
    rintro (rfl | rfl) <;> exact absurd hd (by decide)
  simp only [isIntStr, if_neg h1, List.all_eq_true]
  intro a ha
  exact hdig a ha

theorem strToInt_digits {ds : List Char} (hne : ds ≠ [])
    (hdig : ∀ c ∈ ds, c.isDigit) : strToInt ds = (digitsToNat ds : Int) := by
  obtain ⟨c, t, rfl⟩ := List.exists_cons_of_ne_nil hne
  have hd := digit_ne (hdig c (by simp))
  unfold strToInt
  rw [if_neg, if_neg]
  · simp only [List.head?, Option.some.injEq]
    exact fun h => hd.2.2.2.2 h
  · simp only [List.head?, Option.some.injEq]
    exact fun h => hd.2.2.2.1 h

/-- Lines 180-190 applied to a well-formed trailer line: the extracted exit
code is the integer between the last `", "` and the trailing `" ---"`. -/
theorem extractExit_trailer {m ds : List Char} (hne : ds ≠ [])
    (hdig : ∀ c ∈ ds, c.isDigit) :
    extractExit (trailer m ds) = .ok (digitsToNat ds : Int) := by
  simp only [extractExit, rsplitCS_trailer hdig]
  rw [rstrip_trailer_tail hne hdig, if_pos (isIntStr_digits hne hdig),
    strToInt_digits hne hdig]

/-! ### Branch equations for `_watch_for_marker` -/

theorem watchSplit_some (st : WState) {d b a : List Char}
    (h : splitLastNL d = some (b, a)) :
    watchSplit st d = (st.ll ++ b ++ ['\n'], ⟨a, true⟩) := by
  unfold watchSplit
  rw [h]

theorem watchSplit_none_cand {st : WState} {d : List Char}
    (h : splitLastNL d = none) (hc : st.ll = [] ∨ st.check = true) :
    watchSplit st d = ([], ⟨st.ll ++ d, true⟩) := by
  unfold watchSplit
  rw [h]
  have hc0 : (if st.ll = [] then true else st.check) = true := by
    rcases hc with h1 | h1
    · simp [h1]
    · by_cases h2 : st.ll = [] <;> simp [h2, h1]
  simp [hc0]

theorem watchSplit_none_flush {st : WState} {d : List Char}
    (h : splitLastNL d = none) (hll : st.ll ≠ []) (hc : st.check = false) :
    watchSplit st d = (st.ll ++ d, ⟨[], false⟩) := by
  unfold watchSplit
  rw [h]
  simp [hll, hc]

theorem watchPend_of_check {m : List Char} {st : WState} {d : List Char}
    (h : (watchSplit st d).2.check = true) :
    watchPend m st d = ⟨(watchSplit st d).2.ll, markerRel m (watchSplit st d).2.ll⟩ := by
  unfold watchPend
  simp [h]

theorem watchPend_of_not_check {m : List Char} {st : WState} {d : List Char}
    (h : (watchSplit st d).2.check = false) :
    watchPend m st d = (watchSplit st d).2 := by
  unfold watchPend
  simp [h]

theorem watch_eq_no_match {m : List Char} {st : WState} {d : List Char}
    (h : ((watchPend m st d).check && matchesTrailer m (watchPend m st d).ll) = false) :
    watch m st d = .ok ((watchSplit st d).1, none, watchPend m st d) := by
  unfold watch
  simp only [h, Bool.false_eq_true, if_false]

theorem watch_eq_match (m : List Char) (st : WState) (d : List Char) (v : Int)
    (hc : (watchPend m st d).check = true)
    (hmt : matchesTrailer m (watchPend m st d).ll = true)
    (he : extractExit ((watchPend m st d).ll) = .ok v) :
    watch m st d = .ok ((watchSplit st d).1, some v, ⟨[], false⟩) := by
  unfold watch
  simp only [hc, hmt, Bool.and_self, if_true, he]

/-- `markerRel` always accepts the empty fragment. -/
theorem markerRel_nil {m : List Char} : markerRel m [] = true := by
  unfold markerRel
  exact Bool.or_eq_true_iff.mpr (Or.inr (List.isPrefixOf_iff_prefix.mpr (List.nil_prefix)))

/-! ### Helper lemmas for the stream-drain invariant -/

theorem containsSeg_nil (p : List Char) : containsSeg [] p = p.isEmpty := rfl

theorem containsSeg_cons (c : Char) (t p : List Char) :
    containsSeg (c :: t) p = (p.isPrefixOf (c :: t) || containsSeg t p) := rfl

theorem containsSeg_of (p : List Char) :
    ∀ (x y : List Char), containsSeg (x ++ p ++ y) p = true := by
  intro x
  induction x with
  | nil =>
    intro y
    simp only [List.nil_append]
    cases hp : p ++ y with
    | nil =>
      obtain ⟨h1, h2⟩ := List.append_eq_nil.mp hp
      subst h1
      rfl
    | cons c t =>
      rw [containsSeg_cons, Bool.or_eq_true]
      left
      rw [← hp]
      exact List.isPrefixOf_iff_prefix.mpr ⟨y, rfl⟩
  | cons c x' ih =>
    intro y
    have hshape : (c :: x') ++ p ++ y = c :: (x' ++ p ++ y) := by simp
    rw [hshape, containsSeg_cons, Bool.or_eq_true]
    exact Or.inr (ih y)

theorem append_split_of_le :
    ∀ {x : List Char} {y u v : List Char}, x ++ y = u ++ v → x.length ≤ u.length →
      ∃ t, u = x ++ t ∧ y = t ++ v := by
  intro x
  induction x with
  | nil =>
    intro y u v h _
    exact ⟨u, by simp, by simpa using h⟩
  | cons c x' ih =>
    intro y u v h hl
    cases u with
    | nil => simp at hl
    | cons b u' =>
      simp only [List.cons_append, List.cons.injEq] at h
      obtain ⟨hcb, h2⟩ := h
      obtain ⟨t, ht1, ht2⟩ := ih h2 (by simpa using hl)
      exact ⟨t, by simp [ht1, hcb], ht2⟩

theorem suffix_append_right {x y : List Char} (h : x <:+ y) (d : List Char) :
    x ++ d <:+ y ++ d := by
  obtain ⟨t, ht⟩ := h
  exact ⟨t, by rw [← ht]; simp⟩

theorem ends_nl_decomp {x y q : List Char} (h : x ++ y = q ++ ['\n']) (hy : y ≠ []) :
    ∃ y', y = y' ++ ['\n'] := by
  have hy2 : y.dropLast ++ [y.getLast hy] = y := List.dropLast_append_getLast hy
  have h2 : (x ++ y.dropLast) ++ [y.getLast hy] = q ++ ['\n'] := by
    rw [List.append_assoc, hy2]
    exact h
  have h3 := List.append_inj' h2 (by simp)
  have h4 : y.getLast hy = '\n' := by
    have h5 := h3.2
    simpa using h5
  refine ⟨y.dropLast, ?_⟩
  conv_lhs => rw [← hy2]
  rw [h4]

/-- A fragment that sits inside the command-output region of the stream can
never match the trailer pattern: a match would place the marker inside the
command output, which the marker-uniqueness hypothesis excludes. -/
theorem no_match_in_body {m A x P' v : List Char}
    (hseg : containsSeg A m = false)
    (hx : x <:+ afterLastNL P') (hP' : P' ++ v = A)
    (hmt : matchesTrailer m x = true) : False := by
  obtain ⟨ds', -, -, rfl⟩ := matchesTrailer_iff.mp hmt
  obtain ⟨u1, hu1⟩ := hx
  obtain ⟨u2, hu2⟩ := afterLastNL_suffix P'
  have hA : A = u2 ++ (u1 ++ trailer m ds') ++ v := by
    rw [hu1, hu2, hP']
  have hA2 : A = (u2 ++ u1) ++ m ++ ([',', ' '] ++ ds' ++ [' ', '-', '-', '-'] ++ v) := by
    rw [hA]
    unfold trailer
    simp
  have : containsSeg A m = true := by
    rw [hA2]
    exact containsSeg_of m _ _
  rw [hseg] at this
  exact Bool.noConfusion this

/-- The invariant maintained while `_watch_for_marker` consumes the stream
`A ++ trailer m ds` (where `A` is the process-id line plus the command's own
output, ending in a newline): inside `A` the pending fragment is a suffix of
the text after the last newline seen so far; from the moment the position
enters the trailer, the pending fragment is exactly the portion of the
trailer read so far and the candidate flag is set. -/
def MarkInv (A P : List Char) (st : WState) : Prop :=
  (P.length ≤ A.length → st.ll <:+ afterLastNL P) ∧
  (A.length ≤ P.length → st.ll = P.drop A.length ∧ st.check = true)

theorem markInv_init (A : List Char) : MarkInv A [] reinitWState := by
  constructor
  · intro _
    exact ⟨afterLastNL [], by simp [reinitWState]⟩
  · intro h
    have hA : A = [] := by
      have : A.length = 0 := Nat.le_zero.mp (by simpa using h)
      exact List.eq_nil_of_length_eq_zero this
    subst hA
    exact ⟨rfl, rfl⟩

/-- A chunk without a newline cannot complete a string that ends in a
newline. -/
theorem no_nl_append_ends_nl {P d q : List Char} (hnd : '\n' ∉ d)
    (hdne : d ≠ []) (h : P ++ d = q ++ ['\n']) : False := by
  obtain ⟨y', hy'⟩ := ends_nl_decomp h hdne
  exact hnd (by rw [hy']; simp)

/-- One `_watch_for_marker` call on a chunk that does not yet finish the
stream `A ++ trailer m ds`: it raises nothing, reports no exit code,
conserves the bytes (captured plus pending equals pending plus chunk), and
maintains the invariant. -/
theorem watch_step_inv {m A ds P d w : List Char} {st : WState}
    (hAend : ∃ q, A = q ++ ['\n'])
    (hseg : containsSeg A m = false)
    (hdig : ∀ c ∈ ds, c.isDigit)
    (hm : '\n' ∉ m)
    (hinv : MarkInv A P st)
    (hPd : (P ++ d) ++ w = A ++ trailer m ds)
    (hw : w ≠ []) :
    ∃ c st', watch m st d = .ok (c, none, st') ∧ c ++ st'.ll = st.ll ++ d ∧
      MarkInv A (P ++ d) st' := by
  have hT : '\n' ∉ trailer m ds := nl_not_mem_trailer hm hdig
  rcases le_or_lt A.length P.length with hPA | hPA
  · -- the position is already inside the trailer
    obtain ⟨hll, hck⟩ := hinv.2 hPA
    obtain ⟨t0, hPt0, hTt0⟩ := append_split_of_le (x := A) (u := P) (v := d ++ w)
      (by rw [← hPd]; simp) hPA
    have hll' : st.ll = t0 := by rw [hll, hPt0, List.drop_left]
    have hnd : '\n' ∉ d := by
      intro hmem
      exact hT (hTt0 ▸ (by simp [hmem] : '\n' ∈ t0 ++ (d ++ w)))
    have hsplit : splitLastNL d = none := splitLastNL_eq_none_iff.mpr hnd
    have hws := watchSplit_none_cand hsplit (Or.inr hck)
    have hpre : (t0 ++ d) ++ w = trailer m ds := by rw [hTt0]; simp
    have hrel : markerRel m (st.ll ++ d) = true := by
      rw [hll']
      exact markerRel_of_trailer_prefix hpre
    have hpend : watchPend m st d = ⟨st.ll ++ d, true⟩ := by
      rw [watchPend_of_check (by rw [hws])]
      rw [hws]
      simp [hrel]
    have hnomatch : matchesTrailer m (st.ll ++ d) = false := by
      by_contra hmt
      rw [Bool.not_eq_false] at hmt
      obtain ⟨-, hweq⟩ := matchesTrailer_prefix_eq (t := st.ll ++ d) (w := w)
        hmt (by rw [hll']; exact hpre) hdig
      exact hw hweq
    refine ⟨[], ⟨st.ll ++ d, true⟩, ?_, by simp, ?_⟩
    · rw [watch_eq_no_match (by rw [hpend]; simp [hnomatch]), hws, hpend]
    · constructor
      · intro hle
        have hd0 : d = [] ∧ t0 = [] := by
          have h1 := congrArg List.length hPt0
          simp only [List.length_append] at h1 hle
          constructor
          · exact List.eq_nil_of_length_eq_zero (by omega)
          · exact List.eq_nil_of_length_eq_zero (by omega)
        show st.ll ++ d <:+ afterLastNL (P ++ d)
        have hnil : st.ll ++ d = [] := by rw [hll', hd0.1, hd0.2]; rfl
        rw [hnil]
        exact List.nil_suffix
      · intro _
        refine ⟨?_, rfl⟩
        rw [hll']
        have : P ++ d = A ++ (t0 ++ d) := by rw [hPt0]; simp
        rw [this, List.drop_left]
  · -- the position is still inside the command output A
    have hsuf := hinv.1 (le_of_lt hPA)
    cases hsplit : splitLastNL d with
    | none =>
      have hnd : '\n' ∉ d := splitLastNL_eq_none_iff.mp hsplit
      -- the chunk cannot reach past the end of A (A ends with a newline)
      have hP'lt : (P ++ d).length ≤ A.length := by
        by_contra hcon
        push_neg at hcon
        obtain ⟨t1, hPt1, -⟩ := append_split_of_le (x := A) (u := P ++ d) (v := w)
          (by rw [← hPd]) (le_of_lt hcon)
        obtain ⟨dA, hAdA, hddA⟩ := append_split_of_le (x := P) (u := A) (v := t1)
          hPt1 (le_of_lt hPA)
        have hdAne : dA ≠ [] := by
          intro h0
          have hlen := congrArg List.length hAdA
          rw [h0] at hlen
          simp at hlen
          omega
        obtain ⟨q, hq⟩ := hAend
        obtain ⟨dA', hdA'⟩ := ends_nl_decomp (by rw [← hAdA, hq]) hdAne
        exact hnd (by rw [hddA, hdA']; simp)
      obtain ⟨v, hAv, -⟩ := append_split_of_le (x := P ++ d) (u := A)
        (v := trailer m ds) (by rw [hPd]) hP'lt
      by_cases hcand : st.ll = [] ∨ st.check = true
      · -- candidate path: the pending fragment grows
        have hws := watchSplit_none_cand hsplit hcand
        have hsuf' : st.ll ++ d <:+ afterLastNL (P ++ d) := by
          rw [afterLastNL_append_no_nl hnd]
          exact suffix_append_right hsuf d
        have hnomatch : matchesTrailer m (st.ll ++ d) = false := by
          by_contra hmt
          rw [Bool.not_eq_false] at hmt
          exact no_match_in_body hseg hsuf' hAv.symm hmt
        have hpend : watchPend m st d = ⟨st.ll ++ d, markerRel m (st.ll ++ d)⟩ := by
          rw [watchPend_of_check (by rw [hws])]
          rw [hws]
        refine ⟨[], ⟨st.ll ++ d, markerRel m (st.ll ++ d)⟩, ?_, by simp, ?_⟩
        · rw [watch_eq_no_match (by rw [hpend]; simp [hnomatch]), hws, hpend]
        · constructor
          · intro _
            exact hsuf'
          · intro hge
            exfalso
            have h1 : (P ++ d).length = A.length := le_antisymm hP'lt hge
            have h2 := congrArg List.length hAv
            simp only [List.length_append] at h1 h2
            have hv0 : v = [] := List.eq_nil_of_length_eq_zero (by omega)
            rw [hv0, List.append_nil] at hAv
            -- P ++ d = A ends with '\n', but d has no newline and P is shorter than A
            have hdne : d ≠ [] := by
              intro h0
              rw [h0] at h1
              simp at h1
              omega
            obtain ⟨q, hq⟩ := hAend
            exact no_nl_append_ends_nl hnd hdne (by rw [← hAv]; exact hq)
      · -- released path: the fragment was already ruled out, flush it
        push_neg at hcand
        obtain ⟨hllne, hckf⟩ := hcand
        have hckf' : st.check = false := Bool.not_eq_true _ ▸ hckf
        have hws := watchSplit_none_flush hsplit hllne hckf'
        have hpend : watchPend m st d = ⟨[], false⟩ := by
          rw [watchPend_of_not_check (by rw [hws])]
          rw [hws]
        refine ⟨st.ll ++ d, ⟨[], false⟩, ?_, by simp, ?_⟩
        · rw [watch_eq_no_match (by rw [hpend]; simp), hws, hpend]
        · constructor
          · intro _
            exact ⟨afterLastNL (P ++ d), by simp⟩
          · intro hge
            exfalso
            -- as above, P ++ d would have to end in the final newline of A
            have h1 : (P ++ d).length = A.length := le_antisymm hP'lt hge
            have h2 := congrArg List.length hAv
            simp only [List.length_append] at h1 h2
            have hv0 : v = [] := List.eq_nil_of_length_eq_zero (by omega)
            rw [hv0, List.append_nil] at hAv
            have hdne : d ≠ [] := by
              intro h0
              rw [h0] at h1
              simp at h1
              omega
            obtain ⟨q, hq⟩ := hAend
            exact no_nl_append_ends_nl hnd hdne (by rw [← hAv]; exact hq)
    | some p =>
      obtain ⟨b, a⟩ := p
      obtain ⟨hd_eq, hna⟩ := splitLastNL_eq_some.mp hsplit
      have hws := watchSplit_some st hsplit
      have hpend : watchPend m st d = ⟨a, markerRel m a⟩ := by
        rw [watchPend_of_check (by rw [hws])]
        rw [hws]
      rcases le_or_lt (P ++ d).length A.length with hle | hgt
      · -- the whole chunk is still inside A
        obtain ⟨v, hAv, -⟩ := append_split_of_le (x := P ++ d) (u := A)
          (v := trailer m ds) (by rw [hPd]) hle
        have hmemnl : '\n' ∈ d := by rw [hd_eq]; simp
        have ha : afterLastNL (P ++ d) = a := by
          rw [afterLastNL_append_mem_nl hmemnl]
          unfold afterLastNL
          rw [hsplit]
        have hnomatch : matchesTrailer m a = false := by
          by_contra hmt
          rw [Bool.not_eq_false] at hmt
          exact no_match_in_body hseg (ha ▸ List.suffix_refl a) hAv.symm hmt
        refine ⟨st.ll ++ b ++ ['\n'], ⟨a, markerRel m a⟩, ?_, ?_, ?_⟩
        · rw [watch_eq_no_match (by rw [hpend]; simp [hnomatch]), hws, hpend]
        · rw [hd_eq]
          simp
        · constructor
          · intro _
            rw [ha]
          · intro hge
            have hPdA : P ++ d = A := by
              have h1 : (P ++ d).length = A.length := le_antisymm hle hge
              have h2 := congrArg List.length hAv
              simp only [List.length_append] at h1 h2
              have hv0 : v = [] := List.eq_nil_of_length_eq_zero (by omega)
              rw [hv0, List.append_nil] at hAv
              exact hAv.symm
            obtain ⟨q, hq⟩ := hAend
            have ha0 : a = [] := by
              rw [← ha, hPdA, hq]
              exact afterLastNL_ends_nl
            constructor
            · rw [ha0, hPdA]
              simp
            · rw [ha0]
              exact markerRel_nil
      · -- the chunk crosses from A into the trailer
        obtain ⟨t1, hPt1, hTt1⟩ := append_split_of_le (x := A) (u := P ++ d) (v := w)
          (by rw [← hPd]) (le_of_lt hgt)
        obtain ⟨dA, hAdA, hddA⟩ := append_split_of_le (x := P) (u := A) (v := t1)
          hPt1 (le_of_lt hPA)
        have hdAne : dA ≠ [] := by
          intro h0
          have hlen := congrArg List.length hAdA
          rw [h0] at hlen
          simp at hlen
          omega
        obtain ⟨q, hq⟩ := hAend
        obtain ⟨dA', hdA'⟩ := ends_nl_decomp (by rw [← hAdA, hq]) hdAne
        have hnT : '\n' ∉ t1 := by
          intro hmem
          exact hT (hTt1 ▸ (by simp [hmem] : '\n' ∈ t1 ++ w))
        have hsplit2 : splitLastNL d = some (dA', t1) := by
          rw [hddA, hdA']
          have : (dA' ++ ['\n']) ++ t1 = dA' ++ '\n' :: t1 := by simp
          rw [this]
          exact splitLastNL_of_shape hnT
        rw [hsplit] at hsplit2
        injection hsplit2 with hsplit2
        have hb : b = dA' := congrArg Prod.fst hsplit2
        have ha : a = t1 := congrArg Prod.snd hsplit2
        subst hb
        subst ha
        have hrel : markerRel m a = true :=
          markerRel_of_trailer_prefix hTt1.symm
        have hnomatch : matchesTrailer m a = false := by
          by_contra hmt
          rw [Bool.not_eq_false] at hmt
          obtain ⟨-, hweq⟩ := matchesTrailer_prefix_eq hmt hTt1.symm hdig
          exact hw hweq
        refine ⟨st.ll ++ b ++ ['\n'], ⟨a, markerRel m a⟩, ?_, ?_, ?_⟩
        · rw [watch_eq_no_match (by rw [hpend]; simp [hnomatch]), hws, hpend]
        · rw [hd_eq]
          simp
        · constructor
          · intro hle
            exfalso
            omega
          · intro _
            refine ⟨?_, hrel⟩
            rw [hPt1, List.drop_left]

/-- The `_watch_for_marker` call on the chunk that completes the stream
`A ++ trailer m ds`: the full trailer match fires, the parsed exit code is
the digit value from the trailer, the pending state is cleared, and the
captured data is everything except the trailer. -/
theorem watch_final_step {m A ds P d : List Char} {st : WState}
    (hAend : ∃ q, A = q ++ ['\n'])
    (hds : ds ≠ []) (hdig : ∀ c ∈ ds, c.isDigit)
    (hm : '\n' ∉ m)
    (hinv : MarkInv A P st)
    (hPd : P ++ d = A ++ trailer m ds) :
    ∃ c, watch m st d = .ok (c, some (digitsToNat ds : Int), ⟨[], false⟩) ∧
      c ++ trailer m ds = st.ll ++ d := by
  have hT : '\n' ∉ trailer m ds := nl_not_mem_trailer hm hdig
  have hmtfull : matchesTrailer m (trailer m ds) = true :=
    matchesTrailer_iff.mpr ⟨ds, hds, hdig, rfl⟩
  have hex : extractExit (trailer m ds) = .ok (digitsToNat ds : Int) :=
    extractExit_trailer hds hdig
  rcases le_or_lt A.length P.length with hPA | hPA
  · -- the pending fragment already holds the first part of the trailer
    obtain ⟨hll, hck⟩ := hinv.2 hPA
    obtain ⟨t0, hPt0, hTt0⟩ := append_split_of_le (x := A) (u := P) (v := d)
      (by rw [← hPd]) hPA
    have hll' : st.ll = t0 := by rw [hll, hPt0, List.drop_left]
    have hnd : '\n' ∉ d := by
      intro hmem
      exact hT (hTt0 ▸ (by simp [hmem] : '\n' ∈ t0 ++ d))
    have hsplit : splitLastNL d = none := splitLastNL_eq_none_iff.mpr hnd
    have hws := watchSplit_none_cand hsplit (Or.inr hck)
    have hfull : st.ll ++ d = trailer m ds := by
      rw [hll', ← hTt0]
    have hrel : markerRel m (st.ll ++ d) = true := by
      rw [hfull]
      exact markerRel_of_trailer_prefix
        (List.append_nil (trailer m ds) :
          trailer m ds ++ [] = trailer m ds)
    have hpend : watchPend m st d = ⟨st.ll ++ d, true⟩ := by
      rw [watchPend_of_check (by rw [hws])]
      rw [hws]
      simp [hrel]
    refine ⟨[], ?_, by simp [hfull]⟩
    have := watch_eq_match m st d (digitsToNat ds : Int)
      (by rw [hpend]) (by rw [hpend]; simpa [hfull]) (by rw [hpend]; simpa [hfull])
    rw [this, hws]
  · -- the chunk crosses the final newline of A and carries the whole trailer
    obtain ⟨dA, hAdA, hddA⟩ := append_split_of_le (x := P) (u := A)
      (v := trailer m ds) hPd (le_of_lt hPA)
    have hdAne : dA ≠ [] := by
      intro h0
      have hlen := congrArg List.length hAdA
      rw [h0] at hlen
      simp at hlen
      omega
    obtain ⟨q, hq⟩ := hAend
    obtain ⟨dA', hdA'⟩ := ends_nl_decomp (by rw [← hAdA, hq]) hdAne
    have hsplit : splitLastNL d = some (dA', trailer m ds) := by
      rw [hddA, hdA']
      have hshape : (dA' ++ ['\n']) ++ trailer m ds = dA' ++ '\n' :: trailer m ds := by
        simp
      rw [hshape]
      exact splitLastNL_of_shape hT
    have hws := watchSplit_some st hsplit
    have hrel : markerRel m (trailer m ds) = true :=
      markerRel_of_trailer_prefix
        (List.append_nil (trailer m ds) : trailer m ds ++ [] = trailer m ds)
    have hpend : watchPend m st d = ⟨trailer m ds, true⟩ := by
      rw [watchPend_of_check (by rw [hws])]
      rw [hws]
      simp [hrel]
    refine ⟨st.ll ++ dA' ++ ['\n'], ?_, ?_⟩
    · have := watch_eq_match m st d (digitsToNat ds : Int)
        (by rw [hpend]) (by rw [hpend]; exact hmtfull) (by rw [hpend]; exact hex)
      rw [this, hws]
    · rw [hddA, hdA']
      simp

/-- Folding `_watch_for_marker` over any chunking of the stream
`A ++ trailer m ds` (all chunks nonempty, as delivered by the stream
fetcher): no error is raised, the final reported exit code is the trailer's
digit value, the pending state ends cleared, and the concatenated captured
data is exactly `A` — conservation of all non-protocol bytes. -/
theorem runChunksAux_marker {m A ds : List Char}
    (hAend : ∃ q, A = q ++ ['\n'])
    (hseg : containsSeg A m = false)
    (hds : ds ≠ []) (hdig : ∀ c ∈ ds, c.isDigit)
    (hm : '\n' ∉ m) :
    ∀ (chunks : List (List Char)) (st : WState) (P : List Char) (ex : Option Int),
      MarkInv A P st → P ++ chunks.flatten = A ++ trailer m ds →
      chunks ≠ [] → (∀ c ∈ chunks, c ≠ []) →
      ∃ cap, runChunksAux m st ex chunks =
          .ok (cap, some (digitsToNat ds : Int), ⟨[], false⟩) ∧
        st.ll ++ chunks.flatten = cap ++ trailer m ds := by
  intro chunks
  induction chunks with
  | nil =>
    intro st P ex _ _ hne _
    exact absurd rfl hne
  | cons d rest ih =>
    intro st P ex hinv hjoin hne hni
    by_cases hrest : rest = []
    · subst hrest
      have hPd : P ++ d = A ++ trailer m ds := by
        rw [← hjoin]
        simp [List.flatten]
      obtain ⟨c, hwatch, hcons⟩ := watch_final_step hAend hds hdig hm hinv hPd
      refine ⟨c, ?_, ?_⟩
      · simp only [runChunksAux, hwatch]
        simp [runChunksAux]
      · simp only [List.flatten, List.flatten_nil, List.append_nil]
        simpa using hcons.symm
    · have hjrest : rest.flatten ≠ [] := by
        obtain ⟨r0, rrest, rfl⟩ := List.exists_cons_of_ne_nil hrest
        have hr0 : r0 ≠ [] := hni r0 (by simp)
        simp only [List.flatten]
        exact List.append_ne_nil_of_left_ne_nil hr0 _
      have hPd : (P ++ d) ++ rest.flatten = A ++ trailer m ds := by
        rw [← hjoin]
        simp [List.flatten]
      obtain ⟨c, st', hwatch, hcons, hinv'⟩ :=
        watch_step_inv hAend hseg hdig hm hinv hPd hjrest
      obtain ⟨cap, hrun, hcons2⟩ := ih st' (P ++ d) none hinv' hPd hrest
        (fun c hc => hni c (by simp [hc]))
      refine ⟨c ++ cap, ?_, ?_⟩
      · simp only [runChunksAux, hwatch, hrun]
      · calc st.ll ++ (d :: rest).flatten
            = (st.ll ++ d) ++ rest.flatten := by simp [List.flatten]
          _ = (c ++ st'.ll) ++ rest.flatten := by rw [hcons]
          _ = c ++ (st'.ll ++ rest.flatten) := by simp
          _ = c ++ (cap ++ trailer m ds) := by rw [hcons2]
          _ = (c ++ cap) ++ trailer m ds := by simp

theorem watchSplit_conserve (st : WState) (d : List Char) :
    (watchSplit st d).1 ++ (watchSplit st d).2.ll = st.ll ++ d := by
  unfold watchSplit
  cases h : splitLastNL d with
  | some p =>
    obtain ⟨b, a⟩ := p
    obtain ⟨hd, -⟩ := splitLastNL_eq_some.mp h
    simp [hd]
  | none =>
    by_cases h1 : st.ll = []
    · simp [h1]
    · by_cases h2 : st.check = true <;> simp [h1, h2]

theorem watchPend_ll (m : List Char) (st : WState) (d : List Char) :
    (watchPend m st d).ll = (watchSplit st d).2.ll := by
  unfold watchPend
  by_cases h : (watchSplit st d).2.check <;> simp [h]

theorem watch_conserve (m : List Char) (st : WState) (d : List Char) :
    (watchSplit st d).1 ++ (watchPend m st d).ll = st.ll ++ d := by
  rw [watchPend_ll]
  exact watchSplit_conserve st d

theorem dropFirstLine_append {pid body : List Char} (h : '\n' ∉ pid) :
    dropFirstLine (pid ++ '\n' :: body) = body := by
  induction pid with
  | nil => simp [dropFirstLine]
  | cons c t ih =>
    have hc : ¬(c = '\n') := fun h0 => h (by simp [h0])
    simp only [List.cons_append, dropFirstLine, if_neg hc]
    exact ih (fun hm => h (by simp [hm]))

/-- **C2.** For every interactive-shell command and every way its stdout is
split into nonempty chunks fed through `_watch_for_marker` — including output
that contains comma-space or `---` substrings or a previous marker's whole
trailer, all of which satisfy the hypothesis that this command's own fresh
marker does not occur inside the output — the concatenation of the captured
results equals the command's stdout with the process-id line and the marker
trailer line excluded: no protocol bytes are captured and no output bytes
are lost, independent of the chunk boundaries. -/
theorem claim_C2 (m pid body ds : List Char) (chunks : List (List Char))
    (hjoin : chunks.flatten = (pid ++ '\n' :: body) ++ trailer m ds)
    (hpid : '\n' ∉ pid)
    (hm : '\n' ∉ m)
    (hbody : body = [] ∨ ∃ q, body = q ++ ['\n'])
    (hds : ds ≠ []) (hdig : ∀ c ∈ ds, c.isDigit)
    (hseg : containsSeg (pid ++ '\n' :: body) m = false)
    (hchunks : chunks ≠ []) (hnonempty : ∀ c ∈ chunks, c ≠ []) :
    ∃ cap, runChunks m chunks =
        .ok (cap, some (digitsToNat ds : Int), ⟨[], false⟩) ∧
      cap = pid ++ '\n' :: body ∧ dropFirstLine cap = body := by
  have hAend : ∃ q, pid ++ '\n' :: body = q ++ ['\n'] := by
    rcases hbody with rfl | ⟨q, rfl⟩
    · exact ⟨pid, by simp⟩
    · exact ⟨pid ++ '\n' :: q, by simp⟩
  obtain ⟨cap, hrun, hcons⟩ := runChunksAux_marker hAend hseg hds hdig hm
    chunks reinitWState [] none (markInv_init _) (by simpa using hjoin)
    hchunks hnonempty
  have hcap : cap = pid ++ '\n' :: body := by
    have h1 : (pid ++ '\n' :: body) ++ trailer m ds = cap ++ trailer m ds := by
      rw [← hjoin]
      simpa [reinitWState] using hcons
    exact (List.append_cancel_right h1).symm
  refine ⟨cap, hrun, hcap, ?_⟩
  rw [hcap]
  exact dropFirstLine_append hpid

/-- **C3.** When the pending fragment fully matches the trailer pattern,
`_watch_for_marker` returns exactly the integer between the last `", "` and
the trailing `" ---"` as the exit code, clears the pending-fragment state,
and excludes the matched line from the captured output; and whenever the
full-match branch is reached with a tail that is not an integer after
stripping, the resulting `Error` is raised by `_watch_for_marker` itself —
never silently swallowed. -/
theorem claim_C3 (m : List Char) (st : WState) (d ds : List Char)
    (hds : ds ≠ []) (hdig : ∀ c ∈ ds, c.isDigit)
    (hck : (watchPend m st d).check = true)
    (hll : (watchPend m st d).ll = trailer m ds) :
    (watch m st d =
        .ok ((watchSplit st d).1, some (digitsToNat ds : Int), ⟨[], false⟩)) ∧
    (watchSplit st d).1 ++ trailer m ds = st.ll ++ d ∧
    rsplitCS (trailer m ds) = some (m, ds ++ [' ', '-', '-', '-']) ∧
    rstripDashSpace (ds ++ [' ', '-', '-', '-']) = ds ∧
    (∀ (st2 : WState) (d2 : List Char),
      (watchPend m st2 d2).check = true →
      matchesTrailer m (watchPend m st2 d2).ll = true →
      extractExit (watchPend m st2 d2).ll = .error WErr.badExitCode →
      watch m st2 d2 = .error WErr.badExitCode) := by
  refine ⟨?_, ?_, rsplitCS_trailer hdig, rstrip_trailer_tail hds hdig, ?_⟩
  · exact watch_eq_match m st d (digitsToNat ds : Int) hck
      (by rw [hll]; exact matchesTrailer_iff.mpr ⟨ds, hds, hdig, rfl⟩)
      (by rw [hll]; exact extractExit_trailer hds hdig)
  · rw [← hll]
    exact watch_conserve m st d
  · intro st2 d2 hck2 hmt2 hex2
    unfold watch
    simp only [hck2, hmt2, Bool.and_self, if_true, hex2]

/-- **C4.** After every `_watch_for_marker` call that returns (and after
`_reinit`), the pending fragment is flagged as a marker candidate only if it
is a prefix of the marker or the marker is a prefix of it; and a fragment
that has ceased to be a candidate is not re-checked on a further
newline-free chunk — it is released as ordinary captured output. -/
theorem claim_C4 (m : List Char) :
    (∀ (st : WState) (d c : List Char) (e : Option Int) (st' : WState),
      watch m st d = .ok (c, e, st') → st'.check = true →
      markerRel m st'.ll = true) ∧
    (reinitWState.check = true ∧ markerRel m reinitWState.ll = true) ∧
    (∀ (st : WState) (d : List Char), st.check = false → st.ll ≠ [] →
      splitLastNL d = none →
      watch m st d = .ok (st.ll ++ d, none, ⟨[], false⟩)) := by
  refine ⟨?_, ⟨rfl, markerRel_nil⟩, ?_⟩
  · intro st d c e st' hw hck
    by_cases hcond : ((watchPend m st d).check &&
        matchesTrailer m (watchPend m st d).ll) = true
    · -- full-match branch: the state is cleared, so the flag is false
      exfalso
      rw [Bool.and_eq_true] at hcond
      obtain ⟨hck2, hmt2⟩ := hcond
      cases hex : extractExit (watchPend m st d).ll with
      | error e2 =>
        have herr : watch m st d = .error e2 := by
          unfold watch
          simp only [hck2, hmt2, Bool.and_self, if_true, hex]
        rw [herr] at hw
        exact Except.noConfusion hw
      | ok v =>
        have hwm := watch_eq_match m st d v hck2 hmt2 hex
        rw [hwm] at hw
        injection hw with hw
        have hst' : (⟨[], false⟩ : WState) = st' := congrArg (fun p => p.2.2) hw
        rw [← hst'] at hck
        exact Bool.noConfusion hck
    · have hw' := watch_eq_no_match (Bool.not_eq_true _ ▸ hcond)
      rw [hw'] at hw
      injection hw with hw
      have hst' : watchPend m st d = st' := congrArg (fun p => p.2.2) hw
      rw [← hst'] at hck ⊢
      unfold watchPend at hck ⊢
      by_cases hsc : (watchSplit st d).2.check = true
      · simp only [hsc, if_true] at hck ⊢
        exact hck
      · simp only [Bool.not_eq_true] at hsc
        simp only [hsc, Bool.false_eq_true, if_false] at hck
  · intro st d hck hll hsplit
    have hws := watchSplit_none_flush hsplit hll hck
    have hpend : watchPend m st d = ⟨[], false⟩ := by
      rw [watchPend_of_not_check (by rw [hws])]
      rw [hws]
    rw [watch_eq_no_match (by rw [hpend]; simp), hws, hpend]

/-- The 5-second bound of `_acquire_intsh_lock` (line 491). -/
def intshLockTimeoutSecs : Nat := 5

/-- **C1.** For every wait outcome, `run` (lines 620-632) produces exactly one
of the two completions: it raises `ErrorTimeOut` precisely when the exit code
is unset, otherwise it returns the result unchanged — it never returns a
result whose exit code is unset, and never both raises and returns. -/
theorem claim_C1 (r : ProcResult) :
    (runFinish r = .error RunErr.errorTimeOut ↔ r.exitcode = none) ∧
    (∀ r', runFinish r = .ok r' → r' = r ∧ ∃ n, r'.exitcode = some n) ∧
    ((∃ r', runFinish r = .ok r') ∨ runFinish r = .error RunErr.errorTimeOut) ∧
    ¬((∃ r', runFinish r = .ok r') ∧ runFinish r = .error RunErr.errorTimeOut) := by
  cases hex : r.exitcode with
  | none =>
    refine ⟨by simp [runFinish, hex], ?_, ?_, ?_⟩
    · intro r' h
      simp [runFinish, hex] at h
    · right
      simp [runFinish, hex]
    · rintro ⟨⟨r', h1⟩, -⟩
      simp [runFinish, hex] at h1
  | some n =>
    refine ⟨by simp [runFinish, hex], ?_, ?_, ?_⟩
    · intro r' h
      simp only [runFinish, hex] at h
      injection h with h
      exact ⟨h.symm, n, by rw [h.symm, hex]⟩
    · left
      exact ⟨r, by simp [runFinish, hex]⟩
    · rintro ⟨-, h2⟩
      simp [runFinish, hex] at h2

/-- **C5 counterexample.** With `shell = False` and `intsh = True`,
`_run_async` raises an `Error` (lines 506-507) instead of executing via a
dedicated session — the claimed selection rule fails on exactly this flag
combination. -/
theorem claim_C5_counterexample :
    runAsyncModel false true ⟨true, false, true, true, none⟩ =
      ⟨Disp.raised, false, none⟩ ∧
    Disp.raised ≠ Disp.newSession ∧
    Disp.raised ≠ Disp.newSessionFallback ∧
    Disp.raised ≠ Disp.newSessionRetry :=
  ⟨rfl, by decide, by decide, by decide⟩

/-- **C5 amended.** `_run_async` uses the dedicated-session executor whenever
`intsh` is false (for either value of `shell`); the remaining combination
with `use_shell` false — `shell = False` together with `intsh = True` — does
not reach any executor: it raises an `Error` before dispatch. -/
theorem claim_C5_amended (shell : Bool) (env : AsyncEnv) :
    (runAsyncModel shell false env).disp = Disp.newSession ∧
    (runAsyncModel false true env).disp = Disp.raised := by
  constructor
  · cases shell <;> rfl
  · rfl

/-- **C7 counterexample.** On a transport error, when the recovery
lock acquisition fails, `_run_async` (lines 536-548) leaves the cached
interactive-shell reference in place (`self._intsh` stays non-`None`),
contradicting the claim that the reference is always cleared. -/
theorem claim_C7_counterexample :
    runAsyncModel true true ⟨true, false, false, false, some 7⟩ =
      ⟨Disp.newSessionRetry, true, some 7⟩ ∧
    (some 7 : Option Nat) ≠ none :=
  ⟨rfl, by decide⟩

/-- **C7 amended.** If `_run_in_intsh` raises a transport error, the command
is re-executed exactly once via a fresh dedicated session in every case; the
best-effort teardown and the clearing of the cached session reference happen
only when the recovery lock acquisition succeeds — on lock failure only a
warning is logged and the cached reference is left in place. -/
theorem claim_C7_amended (env : AsyncEnv) (hlock : env.lockDispatch = true)
    (hbusy : env.busy = false) (hok : env.intshOk = false) :
    (runAsyncModel true true env).disp = Disp.newSessionRetry ∧
    (env.lockRecover = true →
      runAsyncModel true true env = ⟨Disp.newSessionRetry, false, none⟩) ∧
    (env.lockRecover = false →
      runAsyncModel true true env = ⟨Disp.newSessionRetry, true, env.intsh⟩) := by
  obtain ⟨l1, b, ok, l2, i⟩ := env
  simp only at hlock hbusy hok
  subst hlock
  subst hbusy
  subst hok
  cases l2 <;> simp [runAsyncModel]

/-- **C8.** A failure to acquire the single-flight interactive-shell lock is
never raised to the caller: on dispatch `_run_async` falls back to a new
dedicated session (lines 512-527, after the `intshLockTimeoutSecs`-bounded
wait) without raising, and on completion `_wait_intsh` (lines 240-248) still
returns its result unchanged, leaving the busy flag as it was. -/
theorem claim_C8 {α : Type} (b ok l2 : Bool) (i : Option Nat)
    (done busy : Bool) (r : α) :
    runAsyncModel true true ⟨false, b, ok, l2, i⟩ =
      ⟨Disp.newSessionFallback, b, i⟩ ∧
    (runAsyncModel true true ⟨false, b, ok, l2, i⟩).disp ≠ Disp.raised ∧
    waitIntshFinish done false busy r = (r, busy) ∧
    intshLockTimeoutSecs = 5 := by
  refine ⟨?_, ?_, ?_, rfl⟩
  · simp [runAsyncModel]
  · simp [runAsyncModel]
  · unfold waitIntshFinish
    cases done <;> simp

/-- **C9 counterexample.** `run` (lines 610-614) calls `_run_async` directly
and performs no `cwd`/`shell` check: with a working directory set and
`shell = False` it raises nothing and dispatches to a dedicated session,
where `_run_in_new_session` (lines 439-444) passes the command through
unchanged — the `cwd` is silently dropped. -/
theorem claim_C9_counterexample :
    runEntryDispatch (some ("/tmp".toList)) false none
        ⟨true, false, true, true, none⟩ =
      .ok ⟨Disp.newSession, false, none⟩ ∧
    (Except.ok ⟨Disp.newSession, false, none⟩ :
        Except EntryErr AsyncOut) ≠ .error EntryErr.cwdNeedsShell ∧
    newSessionCmd ("echo hi".toList) (some ("/tmp".toList)) false =
      "echo hi".toList :=
  ⟨rfl, by simp, rfl⟩

/-- **C9 amended.** The `cwd`-requires-shell rule is enforced on `run_async`
(lines 575-577), which raises before dispatching; `run` performs no such
check — it never raises the `cwd` error, and on the `shell = False` path the
working directory is silently ignored by `_run_in_new_session`. -/
theorem claim_C9_amended (c : List Char) (intsh : Bool) (env : AsyncEnv)
    (intshArg : Option Bool) (cmd : List Char) :
    runAsyncEntry (some c) false intsh none none none env =
      .error EntryErr.cwdNeedsShell ∧
    (∀ cwd shell, runEntryDispatch cwd shell intshArg env ≠
      .error EntryErr.cwdNeedsShell) ∧
    newSessionCmd cmd (some c) false = cmd := by
  refine ⟨by simp [runAsyncEntry], ?_, rfl⟩
  intro cwd shell
  simp [runEntryDispatch]

/-- **C10.** `SSHProcessManager.__new__` ignores positional arguments
entirely: construction yields a `LocalProcessManager` whenever the keyword
`hostname` is absent or `None` — including when a hostname is supplied
positionally — and an SSH-backed instance exactly when a non-`None` keyword
`hostname` is given. -/
theorem claim_C10 (pos : List (List Char)) (kw : Option (Option (List Char))) :
    (sshProcessManagerNew pos kw = PMInstance.localPM ↔
      kw = none ∨ kw = some none) ∧
    (∀ h, sshProcessManagerNew [h] none = PMInstance.localPM) ∧
    (∀ h, sshProcessManagerNew pos kw = PMInstance.sshPM h ↔
      kw = some (some h)) := by
  refine ⟨?_, fun h => rfl, ?_⟩
  · cases kw with
    | none => simp [sshProcessManagerNew]
    | some o =>
      cases o with
      | none => simp [sshProcessManagerNew]
      | some h => simp [sshProcessManagerNew]
  · intro h
    cases kw with
    | none => simp [sshProcessManagerNew]
    | some o =>
      cases o with
      | none => simp [sshProcessManagerNew]
      | some h2 => simp [sshProcessManagerNew]

/-- **C6 counterexample.** In the `_wait_intsh` drain loop, a stdout item
drained after the marker item overwrites the already-set exit code: after the
marker chunk the exit code is `0`, but draining one more stdout chunk `"x"`
runs it through `_watch_for_marker` and the assignment
`data, self.exitcode = self._watch_for_marker(data)` (line 226) resets the
exit code to unset. -/
theorem claim_C6_counterexample :
    waitIntshStep ("--- ab".toList) ⟨none, reinitWState, [], []⟩
        (QItem.chunk 0 ("--- ab, 0 ---".toList)) =
      .ok ⟨some 0, ⟨[], false⟩, [[]], []⟩ ∧
    waitIntshLoop ("--- ab".toList) (none, none) ⟨none, reinitWState, [], []⟩
        [QItem.chunk 0 ("--- ab, 0 ---".toList), QItem.chunk 0 ("x".toList)] =
      .ok ⟨none, ⟨"x".toList, false⟩, [[], []], []⟩ :=
  ⟨rfl, rfl⟩

/-- **C6 amended.** Once the exit code is set, it is left unchanged by
stderr items and by timeout iterations of the `_wait_intsh` loop, and the
loop exits without touching it as soon as the queue is empty; but each
further stdout item that is drained replaces the exit code with that call's
`_watch_for_marker` result — unset again unless the chunk completes a fresh
marker match. -/
theorem claim_C6_amended (m : List Char) (lines : Option Nat × Option Nat)
    (st : IntshState) (n : Int) (h : st.exitcode = some n) :
    waitIntshLoop m lines st [] = .ok st ∧
    (∀ d, ∃ st', waitIntshStep m st (QItem.chunk 1 d) = .ok st' ∧
      st'.exitcode = some n) ∧
    waitIntshStep m st QItem.timedOut = .ok st ∧
    (∀ d c e ws', watch m st.ws d = .ok (c, e, ws') →
      waitIntshStep m st (QItem.chunk 0 d) =
        .ok ⟨e, ws', st.out0 ++ [c], st.out1⟩) := by
  refine ⟨rfl, ?_, rfl, ?_⟩
  · intro d
    exact ⟨_, rfl, h⟩
  · intro d c e ws' hw
    simp only [waitIntshStep, hw]

/-! ### Concrete witnesses -/

theorem claim_C1_witness :
    runFinish ⟨[], [], none⟩ = .error RunErr.errorTimeOut :=
  (claim_C1 ⟨[], [], none⟩).1.mpr rfl

theorem claim_C2_witness :
    ∃ cap, runChunks ("--- ab".toList)
        ["17\nhel".toList, "lo, world ---\n--- zz, 9 ---\n--- a".toList,
          "b, 7 ---".toList] =
        .ok (cap, some (digitsToNat ['7'] : Int), ⟨[], false⟩) ∧
      cap = "17".toList ++ '\n' :: "hello, world ---\n--- zz, 9 ---\n".toList ∧
      dropFirstLine cap = "hello, world ---\n--- zz, 9 ---\n".toList :=
  claim_C2 ("--- ab".toList) ("17".toList)
    ("hello, world ---\n--- zz, 9 ---\n".toList) ['7'] _
    (by decide) (by decide) (by decide)
    (Or.inr ⟨"hello, world ---\n--- zz, 9 ---".toList, by decide⟩)
    (by decide) (by decide) (by decide) (by decide) (by decide)

theorem claim_C3_witness :
    watch ("--- ab".toList) reinitWState ("--- ab, 5 ---".toList) =
      .ok ([], some (digitsToNat ['5'] : Int), ⟨[], false⟩) :=
  (claim_C3 ("--- ab".toList) reinitWState ("--- ab, 5 ---".toList) ['5']
    (by decide) (by decide) (by decide) (by decide)).1

theorem claim_C4_witness :
    watch ("--- ab".toList) ⟨['x'], false⟩ ['y'] =
      .ok (['x', 'y'], none, ⟨[], false⟩) :=
  (claim_C4 ("--- ab".toList)).2.2 ⟨['x'], false⟩ ['y'] rfl (by decide) rfl

theorem claim_C5_witness :
    (runAsyncModel true false ⟨true, false, true, true, none⟩).disp =
      Disp.newSession :=
  (claim_C5_amended true ⟨true, false, true, true, none⟩).1

theorem claim_C6_witness :
    waitIntshLoop ("--- ab".toList) (none, none)
        ⟨some 3, reinitWState, [], []⟩ [] =
      .ok ⟨some 3, reinitWState, [], []⟩ ∧
    waitIntshStep ("--- ab".toList) ⟨some 3, reinitWState, [], []⟩
        QItem.timedOut = .ok ⟨some 3, reinitWState, [], []⟩ :=
  ⟨(claim_C6_amended ("--- ab".toList) (none, none)
      ⟨some 3, reinitWState, [], []⟩ 3 rfl).1,
    (claim_C6_amended ("--- ab".toList) (none, none)
      ⟨some 3, reinitWState, [], []⟩ 3 rfl).2.2.1⟩

theorem claim_C7_witness :
    runAsyncModel true true ⟨true, false, false, true, some 5⟩ =
      ⟨Disp.newSessionRetry, false, none⟩ :=
  (claim_C7_amended ⟨true, false, false, true, some 5⟩ rfl rfl rfl).2.1 rfl

theorem claim_C8_witness :
    runAsyncModel true true ⟨false, true, true, true, some 2⟩ =
      ⟨Disp.newSessionFallback, true, some 2⟩ :=
  (claim_C8 true true true (some 2) false false (0 : Nat)).1

theorem claim_C9_witness :
    runAsyncEntry (some ("/tmp".toList)) false false none none none
        ⟨true, false, true, true, none⟩ =
      .error EntryErr.cwdNeedsShell :=
  (claim_C9_amended ("/tmp".toList) false ⟨true, false, true, true, none⟩
    none ("cmd".toList)).1

theorem claim_C10_witness :
    sshProcessManagerNew ["myhost".toList] none = PMInstance.localPM :=
  (claim_C10 ["myhost".toList] none).1.mpr (Or.inl rfl)

end Pepc
